import Mathlib

/-!
Verification development for the YOLOv5 post-processing pipeline of
`furiosa/models/vision/yolov5/postprocess.py`.

The numeric model uses exact rationals (`ℚ`) in place of IEEE floats: every
operation of the source (grid decoding, IoU, thresholding) is an arithmetic
composition that is modelled exactly; float rounding is outside the scope of
the properties checked here.

Numpy arrays are modelled by `NDArray`: a shape together with the row-major
(C-order) flat data buffer, exactly the layout `np.reshape` / `np.transpose`
operate on.  `reshape` keeps the buffer and checks the total size as numpy
does (a mismatch raises, modelled by `none`); `transpose` re-gathers the
buffer through the axis permutation.
-/

/-- A numpy array: `shape` and the row-major flat `data` buffer. -/
structure NDArray where
  shape : List ℕ
  data : List ℚ

/-- Row-major flat offset of a multi-index `idx` in an array of shape `shape`
(the strides of C-order layout). -/
def flattenIndex : List ℕ → List ℕ → ℕ
  | _ :: srest, i :: irest => i * srest.prod + flattenIndex srest irest
  | _, _ => 0

/-- Inverse of `flattenIndex`: the multi-index of flat offset `k` in `shape`. -/
def unflattenIndex : List ℕ → ℕ → List ℕ
  | [], _ => []
  | s :: srest, k => (k / srest.prod) % s :: unflattenIndex srest k

/-- Element of `a` at multi-index `idx` (0 outside the buffer). -/
def NDArray.get (a : NDArray) (idx : List ℕ) : ℚ :=
  a.data.getD (flattenIndex a.shape idx) 0

/-- Array of shape `shape` whose element at multi-index `idx` is `f idx`. -/
def NDArray.ofFn (shape : List ℕ) (f : List ℕ → ℚ) : NDArray :=
  ⟨shape, (List.range shape.prod).map (fun k => f (unflattenIndex shape k))⟩

/-- `np.reshape`: same buffer, new shape; fails unless the total size is
unchanged (numpy raises `ValueError` on a size mismatch). -/
def NDArray.reshape (a : NDArray) (s : List ℕ) : Option NDArray :=
  if a.data.length = s.prod then some ⟨s, a.data⟩ else none

/-- Source multi-index of `np.transpose(perm)`: new axis `j` is old axis
`perm j`, so the old coordinate on axis `p` is the new coordinate at the
position where `perm` holds `p`. -/
def permuteSource (perm idx : List ℕ) : List ℕ :=
  (List.range perm.length).map (fun p => idx.getD (List.indexOf p perm) 0)

/-- `np.transpose(perm)`: permutes the axes of `a`. -/
def NDArray.transpose (a : NDArray) (perm : List ℕ) : NDArray :=
  NDArray.ofFn (perm.map (fun p => a.shape.getD p 0))
    (fun idx => a.get (permuteSource perm idx))

theorem flattenIndex_lt {idx shape : List ℕ}
    (h : List.Forall₂ (· < ·) idx shape) : flattenIndex shape idx < shape.prod := by
  induction h with
  | nil => simp [flattenIndex]
  | @cons i s irest srest hi _ ih =>
    simp only [flattenIndex, List.prod_cons]
    calc i * srest.prod + flattenIndex srest irest
        < i * srest.prod + srest.prod := by omega
      _ = (i + 1) * srest.prod := by ring
      _ ≤ s * srest.prod := Nat.mul_le_mul_right _ (by omega)

theorem unflattenIndex_mul_add (shape : List ℕ) (a k : ℕ) :
    unflattenIndex shape (a * shape.prod + k) = unflattenIndex shape k := by
  induction shape generalizing a with
  | nil => rfl
  | cons s srest ih =>
    by_cases hP : srest.prod = 0
    · simp [unflattenIndex, List.prod_cons, hP, ih]
    · have hP' : 0 < srest.prod := Nat.pos_of_ne_zero hP
      simp only [unflattenIndex, List.prod_cons]
      rw [List.cons.injEq]
      constructor
      · have : a * (s * srest.prod) + k = k + (a * s) * srest.prod := by ring
        rw [this, Nat.add_mul_div_right _ _ hP', Nat.add_mul_mod_self_right]
      · have : a * (s * srest.prod) + k = (a * s) * srest.prod + k := by ring
        rw [this, ih]

theorem unflattenIndex_flattenIndex {idx shape : List ℕ}
    (h : List.Forall₂ (· < ·) idx shape) :
    unflattenIndex shape (flattenIndex shape idx) = idx := by
  induction h with
  | nil => rfl
  | @cons i s irest srest hi htail ih =>
    have hk : flattenIndex srest irest < srest.prod := flattenIndex_lt htail
    have hP : 0 < srest.prod := Nat.pos_of_ne_zero (by omega)
    simp only [flattenIndex, unflattenIndex]
    rw [List.cons.injEq]
    constructor
    · rw [Nat.mul_comm i srest.prod, Nat.mul_add_div hP,
        Nat.div_eq_of_lt hk, Nat.add_zero, Nat.mod_eq_of_lt hi]
    · rw [unflattenIndex_mul_add, ih]

theorem getD_range_map {α : Type} (f : ℕ → α) (d : α) {k n : ℕ} (h : k < n) :
    (((List.range n).map f).getD k d) = f k := by
  rw [List.getD_eq_getElem?_getD, List.getElem?_map, List.getElem?_range h]
  rfl

theorem NDArray.ofFn_get (shape : List ℕ) (f : List ℕ → ℚ) {idx : List ℕ}
    (h : List.Forall₂ (· < ·) idx shape) :
    (NDArray.ofFn shape f).get idx = f idx := by
  have hlt := flattenIndex_lt h
  simp only [NDArray.ofFn, NDArray.get]
  rw [getD_range_map _ _ hlt, unflattenIndex_flattenIndex h]

theorem NDArray.transpose_get (a : NDArray) (perm : List ℕ) {idx : List ℕ}
    (h : List.Forall₂ (· < ·) idx (perm.map (fun p => a.shape.getD p 0))) :
    (a.transpose perm).get idx = a.get (permuteSource perm idx) :=
  NDArray.ofFn_get _ _ h

theorem NDArray.transpose_shape (a : NDArray) (perm : List ℕ) :
    (a.transpose perm).shape = perm.map (fun p => a.shape.getD p 0) := rfl

/-!
Boxes, IoU and greedy NMS, translated from `_box_area`, `_box_iou` and
`_nms` of `postprocess.py`.
-/

/-- A corner-form box `(x1, y1, x2, y2)`. -/
structure Box where
  x1 : ℚ
  y1 : ℚ
  x2 : ℚ
  y2 : ℚ
deriving DecidableEq

/-- `_box_area`: clip each side length at 0, then multiply
(`np.clip(right_bottom - left_top, a_min=0) → wh[0] * wh[1]`). -/
def box_area (ltx lty rbx rby : ℚ) : ℚ :=
  max (rbx - ltx) 0 * max (rby - lty) 0

/-- The `eps = 1e-5` stabiliser of `_box_iou`. -/
def iouEps : ℚ := 1 / 100000

/-- `_box_iou`: intersection over union with the `1e-5` stabiliser. -/
def box_iou (a b : Box) : ℚ :=
  let inter := box_area (max a.x1 b.x1) (max a.y1 b.y1) (min a.x2 b.x2) (min a.y2 b.y2)
  let area1 := box_area a.x1 a.y1 a.x2 a.y2
  let area2 := box_area b.x1 b.y1 b.x2 b.y2
  inter / (area1 + area2 - inter + iouEps)

/-- One row of the array handed to `_nms`: a corner-form box, its score and
the class id column (`j` stored as a float in the source). -/
structure Det where
  x1 : ℚ
  y1 : ℚ
  x2 : ℚ
  y2 : ℚ
  score : ℚ
  cls : ℚ
deriving DecidableEq

def Det.box (d : Det) : Box := ⟨d.x1, d.y1, d.x2, d.y2⟩

/-- Insert `a` into a score-descending list, after strictly higher scores and
before equal or lower ones. -/
def insertDesc (a : Det) : List Det → List Det
  | [] => [a]
  | b :: l => if a.score < b.score then b :: insertDesc a l else a :: b :: l

/-- Stable score-descending sort (the model of `np.argsort(scores)[::-1]`;
the tie order among equal scores is unspecified in numpy's introsort, here
ties keep their original relative order). -/
def sortByScoreDesc (l : List Det) : List Det := l.foldr insertDesc []

/-- The loop of `_nms`, with explicit fuel (the list length suffices): pop
the best remaining row, keep it, and drop every remaining row whose IoU with
it exceeds the threshold (`indexes = indexes[iou <= iou_threshold]`). -/
def nmsLoop (iouThr : ℚ) : ℕ → List Det → List Det
  | _, [] => []
  | 0, _ :: _ => []
  | fuel + 1, c :: rest =>
    c :: nmsLoop iouThr fuel (rest.filter (fun d => box_iou d.box c.box ≤ iouThr))

/-- `_nms`: sort by score descending, then run the greedy suppression loop.
Returns the kept rows in pick order (the source returns their indices and
then selects the rows, `x[i]`). -/
def nms (iouThr : ℚ) (l : List Det) : List Det :=
  nmsLoop iouThr l.length (sortByScoreDesc l)

/-- The default of `_nms`'s `iou_threshold` parameter (0.45). -/
def nmsDefaultIou : ℚ := 9 / 20

/-!
`non_max_suppression` and the candidate expansion, translated row by row:
a `Row` is one candidate of the `(batch, candidates, classes+5)` prediction
array, channel layout `[cx, cy, w, h, objectness, class scores...]`.
-/

structure Row where
  cx : ℚ
  cy : ℚ
  w : ℚ
  h : ℚ
  obj : ℚ
  cls : List ℚ
deriving DecidableEq

/-- `xywh2xyxy` on one row: center form to corner form. -/
def xywh2xyxy (r : Row) : Box :=
  ⟨r.cx - r.w / 2, r.cy - r.h / 2, r.cx + r.w / 2, r.cy + r.h / 2⟩

/-- The detections one kept candidate emits: after `x[:, 5:] *= x[:, 4:5]`,
`np.where(x[:, 5:] > conf_thres)` yields one `(box, score, class)` row per
class whose combined confidence exceeds the threshold, classes in index
order. -/
def rowDets (conf : ℚ) (r : Row) : List Det :=
  ((r.cls.map (· * r.obj)).enum.filter (fun p => p.2 > conf)).map
    (fun p => ⟨(xywh2xyxy r).x1, (xywh2xyxy r).y1, (xywh2xyxy r).x2, (xywh2xyxy r).y2,
      p.2, (p.1 : ℚ)⟩)

/-- Per image: keep candidates with `objectness > conf_thres`
(`x = x[candidates[xi]]`), then expand each into its qualifying
(box, class) detections, in row-major `np.where` order. -/
def filterExpandImage (conf : ℚ) (rows : List Row) : List Det :=
  (rows.filter (fun r => r.obj > conf)).flatMap (rowDets conf)

/-- `max_nms = 30000`. -/
def maxNmsCount : ℕ := 30000

/-- The pre-NMS cap: when more than `max_nms` detections remain, keep the
30000 best by score (`x = x[np.argsort(x[:, 4])[::-1][:max_nms]]`). -/
def capDets (l : List Det) : List Det :=
  if l.length > maxNmsCount then (sortByScoreDesc l).take maxNmsCount else l

/-- One image of `non_max_suppression` past the threshold asserts.  NOTE:
the source calls `i = _nms(x[:, :5])` WITHOUT forwarding `iou_thres`, so the
suppression threshold is always `_nms`'s default 0.45; the `iouThr` argument
is accepted and unused, exactly as in the source. -/
def nmsImage (conf iouThr : ℚ) (rows : List Row) : List Det :=
  nms nmsDefaultIou (capDets (filterExpandImage conf rows))

/-- `non_max_suppression`: validate the thresholds
(`assert 0 <= conf_thres <= 1`, then `assert 0 <= iou_thres <= 1`, an
`AssertionError` modelled as `.error`), then process each batch image. -/
def non_max_suppression (pred : List (List Row)) (conf iouThr : ℚ) :
    Except String (List (List Det)) :=
  if ¬ (0 ≤ conf ∧ conf ≤ 1) then .error "Invalid conf_thres, not in 0..1"
  else if ¬ (0 ≤ iouThr ∧ iouThr ≤ 1) then .error "Invalid iou_thres, not in 0..1"
  else .ok (pred.map (nmsImage conf iouThr))

/-!
The `YOLOv5PythonPostProcessor`: configuration, grids (`make_grid` /
`init_grid`), per-scale decoding and the full `__call__` pipeline.
Only the `with_sigmoid=False` path is modelled: the sigmoid is a
transcendental function outside ℚ and none of the checked properties
concern it.
-/

/-- Constructor arguments: `anchors` (per layer, per slot `(w, h)`), the
class count (`len(class_names)`; only the length of `class_names` is ever
used) and `input_shape`. -/
structure YoloConfig where
  anchors : List (List (ℚ × ℚ))
  numClasses : ℕ
  inputShape : ℕ × ℕ

/-- `self.num_layers = anchors.shape[0]`. -/
def YoloConfig.numLayers (cfg : YoloConfig) : ℕ := cfg.anchors.length

/-- `self.anchor_per_layer_count = anchors.shape[1]`. -/
def YoloConfig.anchorPerLayer (cfg : YoloConfig) : ℕ := (cfg.anchors.getD 0 []).length

/-- `self.stride[i] = 8.0 * pow(2, i)`. -/
def yoloStride (i : ℕ) : ℚ := 8 * 2 ^ i

/-- `nx` of layer `i`: `int(input_shape[0] / (8 * pow(2, i)))`. -/
def gridNx (cfg : YoloConfig) (i : ℕ) : ℕ := cfg.inputShape.1 / (8 * 2 ^ i)

/-- `ny` of layer `i`: `int(input_shape[1] / (8 * pow(2, i)))`. -/
def gridNy (cfg : YoloConfig) (i : ℕ) : ℕ := cfg.inputShape.2 / (8 * 2 ^ i)

/-- `anchors[i][a]` (a `(w, h)` pair). -/
def anchorAt (cfg : YoloConfig) (i a : ℕ) : ℚ × ℚ := (cfg.anchors.getD i []).getD a (0, 0)

/-- `_reshape_output`: `feat.reshape(batch, A, C+5, W, H).transpose(0, 1, 3, 4, 2)`
where `A` is the anchor-per-layer count, `C` the class count, and `W`/`H`
are `feat.shape[2]`/`feat.shape[3]`. -/
def reshape_output (feat : NDArray) (anchorCount nClasses : ℕ) : Option NDArray :=
  (feat.reshape [feat.shape.getD 0 0, anchorCount, nClasses + 5,
      feat.shape.getD 2 0, feat.shape.getD 3 0]).map
    (fun a => a.transpose [0, 1, 3, 4, 2])

/-- The offset grid of `make_grid(nx, ny, i)`: shape `(1, A, ny, nx, 2)`;
`yv, xv = np.meshgrid(arange(ny), arange(nx), indexing="ij")` gives
`yv[p][q] = p`, `xv[p][q] = q`; `np.stack((xv, yv), axis=2)` puts `xv`
in the last-axis slot 0 and `yv` in slot 1; broadcast over the anchor
axis, minus 0.5. -/
def make_grid_offsets (anchorCount ny nx : ℕ) : NDArray :=
  let xs : List ℚ := (List.range nx).map (Nat.cast : ℕ → ℚ)
  let ys : List ℚ := (List.range ny).map (Nat.cast : ℕ → ℚ)
  NDArray.ofFn [1, anchorCount, ny, nx, 2] (fun idx =>
    (if idx.getD 4 0 = 0 then xs.getD (idx.getD 3 0) 0 else ys.getD (idx.getD 2 0) 0) - 1/2)

/-- The anchor grid of `make_grid(nx, ny, i)`:
`np.reshape(anchors[i] * stride[i], (1, A, 1, 1, 2))` broadcast to
`(1, A, ny, nx, 2)`. -/
def make_anchor_grid (cfg : YoloConfig) (i ny nx : ℕ) : NDArray :=
  NDArray.ofFn [1, cfg.anchorPerLayer, ny, nx, 2] (fun idx =>
    (if idx.getD 4 0 = 0 then (anchorAt cfg i (idx.getD 1 0)).1
     else (anchorAt cfg i (idx.getD 1 0)).2) * yoloStride i)

/-- One element of the decoded tensor
`y = np.concatenate((xy, wh, conf), axis=4)` where
`xy = (xy * 2 + grid) * stride` and `wh = (wh * 2) ** 2 * anchor_grid`:
channels 0-1 read the offset grid, channels 2-3 the anchor grid (both have
batch extent 1, broadcast over the batch index), the rest pass through. -/
def decodeAt (grid anchor : NDArray) (stride : ℚ) (idx : List ℕ) (v : ℚ) : ℚ :=
  let ch := idx.getD 4 0
  if ch < 2 then (v * 2 + grid.get [0, idx.getD 1 0, idx.getD 2 0, idx.getD 3 0, ch]) * stride
  else if ch < 4 then
    (v * 2) ^ 2 * anchor.get [0, idx.getD 1 0, idx.getD 2 0, idx.getD 3 0, ch - 2]
  else v

/-- The decoded per-scale tensor (same shape as the reshaped input `r`):
elementwise `decodeAt` against the layer's cached grids.  This is the
pointwise reading of the numpy broadcast arithmetic; the caller checks that
`r`'s axes match the grid extents (numpy raises on a broadcast mismatch). -/
def decodeTensor (cfg : YoloConfig) (i : ℕ) (r : NDArray) : NDArray :=
  let grid := make_grid_offsets cfg.anchorPerLayer (gridNy cfg i) (gridNx cfg i)
  let anchor := make_anchor_grid cfg i (gridNy cfg i) (gridNx cfg i)
  NDArray.ofFn r.shape (fun idx => decodeAt grid anchor (yoloStride i) idx (r.get idx))

/-- One scale of `__call__`: `_reshape_output`, the decode arithmetic
against the cached grid of that layer (its `(1, A, ny, nx, 2)` extents must
match, else numpy's broadcast raises), then
`np.reshape(y, (1, A * nx * ny, C + 5))` — note the HARD-CODED batch
extent 1: this reshape fails whenever the incoming batch is not 1. -/
def processScale (cfg : YoloConfig) (i : ℕ) (feat : NDArray) : Except String NDArray :=
  match reshape_output feat cfg.anchorPerLayer cfg.numClasses with
  | none => .error "cannot reshape model output"
  | some r =>
    if r.shape.length = 5 ∧ r.shape.getD 1 0 = cfg.anchorPerLayer
        ∧ r.shape.getD 2 0 = gridNy cfg i ∧ r.shape.getD 3 0 = gridNx cfg i
        ∧ r.shape.getD 4 0 = cfg.numClasses + 5 then
      match (decodeTensor cfg i r).reshape
          [1, cfg.anchorPerLayer * r.shape.getD 2 0 * r.shape.getD 3 0,
            cfg.numClasses + 5] with
      | none => .error "cannot reshape decoded output into a single batch"
      | some flat => .ok flat
    else .error "model output does not match the grid extents"

/-- Error-propagating per-scale loop (the `for ... in zip(...)` body). -/
def processScales (cfg : YoloConfig) : List (ℕ × NDArray) → Except String (List NDArray)
  | [] => .ok []
  | (i, f) :: rest =>
    match processScale cfg i f with
    | .error e => .error e
    | .ok a =>
      match processScales cfg rest with
      | .error e => .error e
      | .ok others => .ok (a :: others)

/-- `np.concatenate(outputs, axis=1)` on `(1, n_i, c5)` blocks: with batch
extent 1 this appends the row-major buffers; fails on an empty list or a
shape mismatch, as numpy does. -/
def concatCandidates (l : List NDArray) (c5 : ℕ) : Option NDArray :=
  match l with
  | [] => none
  | _ =>
    if l.all (fun a => a.shape = [1, a.shape.getD 1 0, c5]) then
      some ⟨[1, (l.map (fun a => a.shape.getD 1 0)).sum, c5], l.flatMap (fun a => a.data)⟩
    else none

/-- Read the `(1, N, C+5)` candidate array back as rows. -/
def rowsOfCandidates (nd : NDArray) (nClasses : ℕ) : List Row :=
  (List.range (nd.shape.getD 1 0)).map (fun k =>
    ⟨nd.get [0, k, 0], nd.get [0, k, 1], nd.get [0, k, 2], nd.get [0, k, 3], nd.get [0, k, 4],
      (List.range nClasses).map (fun j => nd.get [0, k, 5 + j])⟩)

/-- A per-image preprocessing context: `contexts[i]["scale"]` and
`contexts[i]["pad"] = (padX, padY)`. -/
structure PreprocContext where
  scale : ℚ
  padX : ℚ
  padY : ℚ
deriving DecidableEq

/-- The inverse letterbox remap of `__call__`:
`prediction[:, [0, 2]] = (1/ratio) * (prediction[:, [0, 2]] - dwdh[0])` and
likewise for y with `dwdh[1]`. -/
def remapDet (ctx : PreprocContext) (d : Det) : Det :=
  ⟨1 / ctx.scale * (d.x1 - ctx.padX), 1 / ctx.scale * (d.y1 - ctx.padY),
   1 / ctx.scale * (d.x2 - ctx.padX), 1 / ctx.scale * (d.y2 - ctx.padY), d.score, d.cls⟩

/-- `YOLOv5PythonPostProcessor.__call__` (`with_sigmoid=False` path): decode
every scale (`zip` truncates to the configured layer count), concatenate the
per-scale candidates, run `non_max_suppression`, then remap each batch
image's detections through its own context (`contexts[i]` raises an
`IndexError` when the context list is shorter than the batch). -/
def callPipeline (cfg : YoloConfig) (modelOutputs : List NDArray)
    (contexts : List PreprocContext) (conf iouThr : ℚ) :
    Except String (List (List Det)) :=
  match processScales cfg (modelOutputs.take cfg.numLayers).enum with
  | .error e => .error e
  | .ok flats =>
    match concatCandidates flats (cfg.numClasses + 5) with
    | none => .error "cannot concatenate the per scale candidates"
    | some allCands =>
      match non_max_suppression [rowsOfCandidates allCands cfg.numClasses] conf iouThr with
      | .error e => .error e
      | .ok preds =>
        if preds.length ≤ contexts.length then
          .ok ((preds.zip contexts).map (fun pc => pc.1.map (remapDet pc.2)))
        else .error "missing preprocessing context for a batch image"

/-!
Remaining definitions used by the verification statements: class relabeling,
the sortedness predicate of the score order, and the concrete inputs of the
scenario claims.
-/

/-- Rewrite the class-id column of a detection, leaving geometry and score
unchanged. -/
def relabelDet (f : ℚ → ℚ) (d : Det) : Det :=
  ⟨d.x1, d.y1, d.x2, d.y2, d.score, f d.cls⟩

/-- Score-descending sortedness. -/
abbrev SortedDesc (l : List Det) : Prop :=
  List.Pairwise (fun a b => b.score ≤ a.score) l

/-- Configuration of the end-to-end scenario: one layer, one anchor
`(10, 10)`, one class, `input_shape = (8, 8)` (hence a 1×1 grid at
stride 8). -/
def cfgE2E : YoloConfig := ⟨[[(10, 10)]], 1, (8, 8)⟩

/-- Raw tensor of the end-to-end scenario: shape `(1, 6, 1, 1)`, channels
`[x, y, w, h, objectness, class0] = [0, 0, 0.5, 0.5, 1, 1]`. -/
def featE2E : NDArray := ⟨[1, 6, 1, 1], [0, 0, 1/2, 1/2, 1, 1]⟩

/-- The same scenario tensor with batch extent 2 (two images):
shape `(2, 6, 1, 1)`. -/
def featBatch2 : NDArray := ⟨[2, 6, 1, 1], (List.range 12).map (fun n => (n : ℚ))⟩

/-- A feature map with distinct spatial extents, `shape = (1, 6, 2, 1)`
(axis 2 of extent 2, axis 3 of extent 1), buffer `0..11`. -/
def featSpatial : NDArray := ⟨[1, 6, 2, 1], (List.range 12).map (fun n => (n : ℚ))⟩

/-- Candidate rows of the fixed-threshold scenario: boxes `(0,0,10,10)` at
combined score 0.9 and `(0,0,10,6)` at 0.8, overlapping with IoU ≈ 0.6. -/
def rowIouA : Row := ⟨5, 5, 10, 10, 9/10, [1]⟩
def rowIouB : Row := ⟨5, 3, 10, 6, 8/10, [1]⟩

/-- Candidate rows of the monotonicity counterexample.  Boxes on a line:
A `(0,0,10,10)` score 0.95, B `(8,0,18,10)` score 0.9 (objectness 0.3 and a
class score of 3), C `(6,0,16,10)` score 0.8, D `(10,0,20,10)` score 0.7.
B overlaps C and D beyond 0.45 while A does not overlap B, C or D beyond
0.45, and C–D stay below 0.45. -/
def rowMonoA : Row := ⟨5, 5, 10, 10, 19/20, [1]⟩
def rowMonoB : Row := ⟨13, 5, 10, 10, 3/10, [3]⟩
def rowMonoC : Row := ⟨11, 5, 10, 10, 4/5, [1]⟩
def rowMonoD : Row := ⟨15, 5, 10, 10, 7/10, [1]⟩

/-- The multi-label scenario row: one box, objectness 0.9, two class scores
0.8 and 0.7 (combined 0.72 and 0.63). -/
def rowMulti : Row := ⟨0, 0, 2, 2, 9/10, [8/10, 7/10]⟩

/-- The end-to-end scenario tensor after `_reshape_output`:
shape `(1, 1, 1, 1, 6)`, same buffer. -/
def featE2EReshaped : NDArray := ⟨[1, 1, 1, 1, 6], [0, 0, 1/2, 1/2, 1, 1]⟩

/-!
Claim theorems.
-/

/-- C10: `non_max_suppression` validates both thresholds before producing
any detections — a threshold outside `[0, 1]` yields an invalid-parameter
error and no output (never a clamped run), while thresholds inside `[0, 1]`
raise no such error and the per-image results are returned. -/
theorem yolov5_c10_threshold_validation (pred : List (List Row)) (conf iouThr : ℚ) :
    ((conf < 0 ∨ 1 < conf ∨ iouThr < 0 ∨ 1 < iouThr) →
      ∃ msg, non_max_suppression pred conf iouThr = .error msg)
    ∧ (0 ≤ conf → conf ≤ 1 → 0 ≤ iouThr → iouThr ≤ 1 →
      non_max_suppression pred conf iouThr = .ok (pred.map (nmsImage conf iouThr))) := by
  unfold non_max_suppression
  by_cases h1 : 0 ≤ conf ∧ conf ≤ 1
  · by_cases h2 : 0 ≤ iouThr ∧ iouThr ≤ 1
    · rw [if_neg (not_not_intro h1), if_neg (not_not_intro h2)]
      refine ⟨fun hbad => ?_, fun _ _ _ _ => rfl⟩
      rcases h1 with ⟨hc0, hc1⟩
      rcases h2 with ⟨hi0, hi1⟩
      rcases hbad with h | h | h | h <;> linarith
    · rw [if_neg (not_not_intro h1), if_pos h2]
      exact ⟨fun _ => ⟨_, rfl⟩, fun _ _ hi0 hi1 => absurd ⟨hi0, hi1⟩ h2⟩
  · rw [if_pos h1]
    exact ⟨fun _ => ⟨_, rfl⟩, fun hc0 hc1 _ _ => absurd ⟨hc0, hc1⟩ h1⟩

/-- Witness for C10 at `conf_thres = 2` (out of range) and at the in-range
pair `conf_thres = 0`, `iou_thres = 1`. -/
theorem yolov5_c10_threshold_validation_witness :
    (∃ msg, non_max_suppression [] 2 (1/2) = .error msg)
    ∧ non_max_suppression [] 0 1 = .ok [] :=
  ⟨(yolov5_c10_threshold_validation [] 2 (1/2)).1 (Or.inr (Or.inl one_lt_two)),
    (yolov5_c10_threshold_validation [] 0 1).2 (le_refl 0) zero_le_one zero_le_one
      (le_refl 1)⟩

theorem make_grid_offsets_get (A ny nx : ℕ) {a p q d : ℕ}
    (ha : a < A) (hp : p < ny) (hq : q < nx) (hd : d < 2) :
    (make_grid_offsets A ny nx).get [0, a, p, q, d]
      = (if d = 0 then (q : ℚ) else (p : ℚ)) - 1/2 := by
  have hf : List.Forall₂ (· < ·) [0, a, p, q, d] [1, A, ny, nx, 2] :=
    .cons one_pos (.cons ha (.cons hp (.cons hq (.cons hd .nil))))
  simp only [make_grid_offsets]
  rw [NDArray.ofFn_get _ _ hf]
  have e4 : [0, a, p, q, d].getD 4 0 = d := rfl
  have e3 : [0, a, p, q, d].getD 3 0 = q := rfl
  have e2 : [0, a, p, q, d].getD 2 0 = p := rfl
  rw [e4, e3, e2]
  by_cases h0 : d = 0
  · rw [if_pos h0, if_pos h0, getD_range_map _ _ hq]
  · rw [if_neg h0, if_neg h0, getD_range_map _ _ hp]

theorem make_anchor_grid_get (cfg : YoloConfig) (i ny nx : ℕ) {a p q d : ℕ}
    (ha : a < cfg.anchorPerLayer) (hp : p < ny) (hq : q < nx) (hd : d < 2) :
    (make_anchor_grid cfg i ny nx).get [0, a, p, q, d]
      = (if d = 0 then (anchorAt cfg i a).1 else (anchorAt cfg i a).2) * yoloStride i := by
  have hf : List.Forall₂ (· < ·) [0, a, p, q, d] [1, cfg.anchorPerLayer, ny, nx, 2] :=
    .cons one_pos (.cons ha (.cons hp (.cons hq (.cons hd .nil))))
  simp only [make_anchor_grid]
  rw [NDArray.ofFn_get _ _ hf]
  have e4 : [0, a, p, q, d].getD 4 0 = d := rfl
  have e1 : [0, a, p, q, d].getD 1 0 = a := rfl
  rw [e4, e1]

/-- C2: the per-scale decode.  For layer `i`, at batch `b`, anchor slot `a`
and spatial cell of row `p` (axis 2) and column `q` (axis 3), the decoded
tensor satisfies `xy = (raw * 2 + (col - 0.5, row - 0.5)) * stride_i` with
`stride_i = 8 * 2^i`, `wh = (raw * 2)^2 * (anchors[i][a] * stride_i)`, and
the objectness/class channels (4 and up) pass through unchanged. -/
theorem yolov5_c2_decode (cfg : YoloConfig) (r : NDArray) (B i b a p q : ℕ)
    (hs : r.shape = [B, cfg.anchorPerLayer, gridNy cfg i, gridNx cfg i, cfg.numClasses + 5])
    (hb : b < B) (ha : a < cfg.anchorPerLayer)
    (hp : p < gridNy cfg i) (hq : q < gridNx cfg i) :
    ((decodeTensor cfg i r).get [b, a, p, q, 0]
        = (r.get [b, a, p, q, 0] * 2 + ((q : ℚ) - 1/2)) * (8 * 2 ^ i))
    ∧ ((decodeTensor cfg i r).get [b, a, p, q, 1]
        = (r.get [b, a, p, q, 1] * 2 + ((p : ℚ) - 1/2)) * (8 * 2 ^ i))
    ∧ ((decodeTensor cfg i r).get [b, a, p, q, 2]
        = (r.get [b, a, p, q, 2] * 2) ^ 2 * ((anchorAt cfg i a).1 * (8 * 2 ^ i)))
    ∧ ((decodeTensor cfg i r).get [b, a, p, q, 3]
        = (r.get [b, a, p, q, 3] * 2) ^ 2 * ((anchorAt cfg i a).2 * (8 * 2 ^ i)))
    ∧ (∀ ch, 4 ≤ ch → ch < cfg.numClasses + 5 →
        (decodeTensor cfg i r).get [b, a, p, q, ch] = r.get [b, a, p, q, ch]) := by
  have hf : ∀ ch, ch < cfg.numClasses + 5 →
      List.Forall₂ (· < ·) [b, a, p, q, ch] r.shape := by
    intro ch hch
    rw [hs]
    exact .cons hb (.cons ha (.cons hp (.cons hq (.cons hch .nil))))
  have hget : ∀ ch, ch < cfg.numClasses + 5 →
      (decodeTensor cfg i r).get [b, a, p, q, ch]
        = decodeAt (make_grid_offsets cfg.anchorPerLayer (gridNy cfg i) (gridNx cfg i))
            (make_anchor_grid cfg i (gridNy cfg i) (gridNx cfg i)) (yoloStride i)
            [b, a, p, q, ch] (r.get [b, a, p, q, ch]) := by
    intro ch hch
    simp only [decodeTensor]
    rw [NDArray.ofFn_get _ _ (hf ch hch)]
  have e4 : ∀ ch : ℕ, [b, a, p, q, ch].getD 4 0 = ch := fun _ => rfl
  have e3 : ∀ ch : ℕ, [b, a, p, q, ch].getD 3 0 = q := fun _ => rfl
  have e2 : ∀ ch : ℕ, [b, a, p, q, ch].getD 2 0 = p := fun _ => rfl
  have e1 : ∀ ch : ℕ, [b, a, p, q, ch].getD 1 0 = a := fun _ => rfl
  refine ⟨?_, ?_, ?_, ?_, ?_⟩
  · rw [hget 0 (by omega)]
    simp only [decodeAt, e4, e3, e2, e1]
    rw [if_pos (by omega : (0:ℕ) < 2),
      make_grid_offsets_get _ _ _ ha hp hq (by omega)]
    simp [yoloStride]
  · rw [hget 1 (by omega)]
    simp only [decodeAt, e4, e3, e2, e1]
    rw [if_pos (by omega : (1:ℕ) < 2),
      make_grid_offsets_get _ _ _ ha hp hq (by omega)]
    simp [yoloStride]
  · rw [hget 2 (by omega)]
    simp only [decodeAt, e4, e3, e2, e1]
    rw [if_neg (by omega : ¬ (2:ℕ) < 2), if_pos (by omega : (2:ℕ) < 4)]
    have e22 : (2 : ℕ) - 2 = 0 := rfl
    rw [e22, make_anchor_grid_get _ _ _ _ ha hp hq (by omega)]
    simp [yoloStride]
  · rw [hget 3 (by omega)]
    simp only [decodeAt, e4, e3, e2, e1]
    rw [if_neg (by omega : ¬ (3:ℕ) < 2), if_pos (by omega : (3:ℕ) < 4)]
    have e32 : (3 : ℕ) - 2 = 1 := rfl
    rw [e32, make_anchor_grid_get _ _ _ _ ha hp hq (by omega)]
    simp [yoloStride]
  · intro ch hch4 hch
    rw [hget ch hch]
    simp only [decodeAt, e4]
    rw [if_neg (by omega), if_neg (by omega)]

/-- Witness for C2 on the end-to-end scenario tensor at layer 0, cell
`(0, 0)`, anchor slot 0. -/
theorem yolov5_c2_decode_witness :
    (featE2EReshaped.shape
      = [1, cfgE2E.anchorPerLayer, gridNy cfgE2E 0, gridNx cfgE2E 0, cfgE2E.numClasses + 5])
    ∧ ((decodeTensor cfgE2E 0 featE2EReshaped).get [0, 0, 0, 0, 0]
      = (featE2EReshaped.get [0, 0, 0, 0, 0] * 2 + (((0 : ℕ) : ℚ) - 1/2)) * (8 * 2 ^ 0)) :=
  ⟨rfl, (yolov5_c2_decode cfgE2E featE2EReshaped 1 0 0 0 0 0 rfl (by decide) (by decide)
    (by decide) (by decide)).1⟩

/-- C6 fails on the code: on a feature map of shape `(1, 6, 2, 1)` — axis 2
(labelled the width-cell axis by the source) of extent 2 — the
reshape-and-transpose yields shape `(1, 1, 2, 1, 6)`, keeping the two
spatial axes in their input order, not the claimed `(1, 1, 1, 2, 6)` with
the spatial axes swapped. -/
theorem yolov5_c6_counterexample :
    (reshape_output featSpatial 1 1).map NDArray.shape = some [1, 1, 2, 1, 6]
    ∧ (reshape_output featSpatial 1 1).map NDArray.shape ≠ some [1, 1, 1, 2, 6] :=
  ⟨by decide, by decide⟩

/-- C6 amended: for a raw map of shape `(batch, A*(C+5), S2, S3)` (spatial
axes in source order: `feat.shape[2]` then `feat.shape[3]`),
`_reshape_output` produces shape `(batch, A, S2, S3, C+5)` — the channel
block of each anchor slot moves to the trailing axis and the two spatial
axes KEEP their input order — with
`out[b, a, w, h, c] = feat[b, a*(C+5)+c, w, h]`. -/
theorem yolov5_c6_amended (feat : NDArray) (B A C W H : ℕ)
    (hs : feat.shape = [B, A * (C + 5), W, H])
    (hd : feat.data.length = feat.shape.prod) :
    ∃ out, reshape_output feat A C = some out
      ∧ out.shape = [B, A, W, H, C + 5]
      ∧ ∀ b a w h c, b < B → a < A → w < W → h < H → c < C + 5 →
          out.get [b, a, w, h, c] = feat.get [b, a * (C + 5) + c, w, h] := by
  have hgd0 : feat.shape.getD 0 0 = B := by rw [hs]; rfl
  have hgd2 : feat.shape.getD 2 0 = W := by rw [hs]; rfl
  have hgd3 : feat.shape.getD 3 0 = H := by rw [hs]; rfl
  have hprod : feat.data.length = ([B, A, C + 5, W, H] : List ℕ).prod := by
    rw [hd, hs]
    simp only [List.prod_cons, List.prod_nil]
    ring
  have hres : feat.reshape [feat.shape.getD 0 0, A, C + 5,
      feat.shape.getD 2 0, feat.shape.getD 3 0]
      = some ⟨[B, A, C + 5, W, H], feat.data⟩ := by
    rw [hgd0, hgd2, hgd3, NDArray.reshape, if_pos hprod]
  refine ⟨(⟨[B, A, C + 5, W, H], feat.data⟩ : NDArray).transpose [0, 1, 3, 4, 2],
    by rw [reshape_output, hres]; rfl, rfl, ?_⟩
  intro b a w h c hb ha hw hh hc
  have hf : List.Forall₂ (· < ·) [b, a, w, h, c]
      ([0, 1, 3, 4, 2].map
        (fun p => (⟨[B, A, C + 5, W, H], feat.data⟩ : NDArray).shape.getD p 0)) :=
    .cons hb (.cons ha (.cons hw (.cons hh (.cons hc .nil))))
  rw [NDArray.transpose_get _ _ hf]
  have hperm : permuteSource [0, 1, 3, 4, 2] [b, a, w, h, c] = [b, a, c, w, h] := rfl
  rw [hperm]
  simp only [NDArray.get, hs]
  congr 1
  simp only [flattenIndex, List.prod_cons, List.prod_nil]
  ring

/-- Witness for C6 amended on the `(1, 6, 2, 1)` feature map. -/
theorem yolov5_c6_amended_witness :
    ∃ out, reshape_output featSpatial 1 1 = some out
      ∧ out.shape = [1, 1, 2, 1, 6]
      ∧ ∀ b a w h c, b < 1 → a < 1 → w < 2 → h < 1 → c < 6 →
          out.get [b, a, w, h, c] = featSpatial.get [b, a * (1 + 5) + c, w, h] :=
  yolov5_c6_amended featSpatial 1 1 1 2 1 rfl rfl

theorem length_insertDesc (a : Det) (l : List Det) :
    (insertDesc a l).length = l.length + 1 := by
  induction l with
  | nil => rfl
  | cons b t ih =>
    rw [insertDesc]
    split_ifs
    · simp [ih]
    · rfl

theorem length_sortByScoreDesc (l : List Det) :
    (sortByScoreDesc l).length = l.length := by
  induction l with
  | nil => rfl
  | cons a t ih =>
    show (insertDesc a (sortByScoreDesc t)).length = t.length + 1
    rw [length_insertDesc, ih]

theorem mem_insertDesc {x a : Det} {l : List Det} (h : x ∈ insertDesc a l) :
    x = a ∨ x ∈ l := by
  induction l with
  | nil => simpa [insertDesc] using h
  | cons b t ih =>
    rw [insertDesc] at h
    split_ifs at h
    · rcases List.mem_cons.mp h with hb | ht
      · exact Or.inr (by simp [hb])
      · rcases ih ht with h1 | h2
        · exact Or.inl h1
        · exact Or.inr (List.mem_cons_of_mem _ h2)
    · rcases List.mem_cons.mp h with hb | ht
      · exact Or.inl hb
      · exact Or.inr ht

theorem sortedDesc_insertDesc {a : Det} {l : List Det} (h : SortedDesc l) :
    SortedDesc (insertDesc a l) := by
  induction l with
  | nil => simp [insertDesc]
  | cons b t ih =>
    obtain ⟨hb, ht⟩ := List.pairwise_cons.mp h
    rw [insertDesc]
    by_cases hab : a.score < b.score
    · rw [if_pos hab]
      refine List.pairwise_cons.mpr ⟨fun x hx => ?_, ih ht⟩
      rcases mem_insertDesc hx with hxa | hxt
      · rw [hxa]; exact le_of_lt hab
      · exact hb x hxt
    · rw [if_neg hab]
      refine List.pairwise_cons.mpr ⟨fun x hx => ?_, List.pairwise_cons.mpr ⟨hb, ht⟩⟩
      rcases List.mem_cons.mp hx with hxb | hxt
      · rw [hxb]; exact not_lt.mp hab
      · exact le_trans (hb x hxt) (not_lt.mp hab)

theorem sortedDesc_sortByScoreDesc (l : List Det) : SortedDesc (sortByScoreDesc l) := by
  induction l with
  | nil => exact List.Pairwise.nil
  | cons a t ih => exact sortedDesc_insertDesc ih

theorem insertDesc_eq_cons {a : Det} {l : List Det}
    (h : ∀ x ∈ l, x.score ≤ a.score) : insertDesc a l = a :: l := by
  cases l with
  | nil => rfl
  | cons b t =>
    rw [insertDesc, if_neg (not_lt.mpr (h b (List.mem_cons_self b t)))]

theorem sortByScoreDesc_eq_self {l : List Det} (h : SortedDesc l) :
    sortByScoreDesc l = l := by
  induction l with
  | nil => rfl
  | cons a t ih =>
    obtain ⟨ha, ht⟩ := List.pairwise_cons.mp h
    show insertDesc a (sortByScoreDesc t) = a :: t
    rw [ih ht, insertDesc_eq_cons ha]

theorem filter_insertDesc (p : Det → Bool) {a : Det} {l : List Det} (h : SortedDesc l) :
    (insertDesc a l).filter p = if p a then insertDesc a (l.filter p) else l.filter p := by
  induction l with
  | nil =>
    rw [insertDesc]
    by_cases hpa : p a <;> simp [hpa, insertDesc]
  | cons b t ih =>
    obtain ⟨hb, ht⟩ := List.pairwise_cons.mp h
    rw [insertDesc]
    by_cases hab : a.score < b.score
    · -- a goes past b
      rw [if_pos hab]
      simp only [List.filter_cons, ih ht]
      by_cases hpa : p a <;> by_cases hpb : p b <;>
        simp [hpa, hpb, insertDesc, hab]
    · -- a stays in front of b :: t
      have hble : b.score ≤ a.score := not_lt.mp hab
      rw [if_neg hab]
      by_cases hpa : p a
      · have hall : ∀ x ∈ (b :: t).filter p, x.score ≤ a.score := by
          intro x hx
          have hxm : x ∈ b :: t := List.mem_of_mem_filter hx
          rcases List.mem_cons.mp hxm with hxb | hxt
          · rw [hxb]; exact hble
          · exact le_trans (hb x hxt) hble
        rw [if_pos hpa, insertDesc_eq_cons hall, List.filter_cons, if_pos (by simp [hpa])]
      · rw [if_neg hpa, List.filter_cons, if_neg (by simp [hpa])]

theorem sortByScoreDesc_filter (p : Det → Bool) (l : List Det) :
    sortByScoreDesc (l.filter p) = (sortByScoreDesc l).filter p := by
  induction l with
  | nil => rfl
  | cons a t ih =>
    show sortByScoreDesc ((a :: t).filter p)
      = (insertDesc a (sortByScoreDesc t)).filter p
    rw [filter_insertDesc p (sortedDesc_sortByScoreDesc t), List.filter_cons]
    by_cases hpa : p a
    · rw [if_pos (by simp [hpa]), if_pos hpa]
      show insertDesc a (sortByScoreDesc (t.filter p)) = _
      rw [ih]
    · rw [if_neg (by simp [hpa]), if_neg hpa, ih]

theorem filter_score_isPrefix {l : List Det} (t : ℚ) (h : SortedDesc l) :
    (l.filter (fun d => d.score > t)) <+: l := by
  induction l with
  | nil => simp
  | cons a rest ih =>
    obtain ⟨ha, hrest⟩ := List.pairwise_cons.mp h
    rw [List.filter_cons]
    by_cases hat : a.score > t
    · rw [if_pos (by simp [hat])]
      obtain ⟨w, hw⟩ := ih hrest
      exact ⟨w, by rw [List.cons_append, hw]⟩
    · rw [if_neg (by simp [hat])]
      have hnil : rest.filter (fun d => d.score > t) = [] := by
        rw [List.filter_eq_nil_iff]
        intro x hx
        simp only [decide_eq_true_eq]
        exact fun hxt => hat (lt_of_lt_of_le hxt (ha x hx))
      rw [hnil]
      exact List.nil_prefix

theorem nmsLoop_length_mono (iouThr : ℚ) :
    ∀ (f1 : ℕ) (l1 l2 : List Det) (f2 : ℕ), l1.length ≤ f1 →
      l1.length + l2.length ≤ f2 →
      (nmsLoop iouThr f1 l1).length ≤ (nmsLoop iouThr f2 (l1 ++ l2)).length := by
  intro f1
  induction f1 with
  | zero =>
    intro l1 l2 f2 h1 _
    rw [List.length_eq_zero.mp (Nat.le_zero.mp h1)]
    simp [nmsLoop]
  | succ f1' ih =>
    intro l1 l2 f2 h1 h2
    cases l1 with
    | nil => simp [nmsLoop]
    | cons c r1 =>
      cases f2 with
      | zero => simp only [List.length_cons] at h2; omega
      | succ f2' =>
        rw [List.cons_append]
        rw [nmsLoop, nmsLoop, List.filter_append]
        simp only [List.length_cons]
        have hr1 : (r1.filter (fun d => box_iou d.box c.box ≤ iouThr)).length ≤ f1' := by
          have := List.length_filter_le (fun d => box_iou d.box c.box ≤ iouThr) r1
          simp only [List.length_cons] at h1
          omega
        have hr2 : (r1.filter (fun d => box_iou d.box c.box ≤ iouThr)).length
            + (l2.filter (fun d => box_iou d.box c.box ≤ iouThr)).length ≤ f2' := by
          have ha := List.length_filter_le (fun d => box_iou d.box c.box ≤ iouThr) r1
          have hb := List.length_filter_le (fun d => box_iou d.box c.box ≤ iouThr) l2
          simp only [List.length_cons] at h2
          omega
        exact Nat.succ_le_succ (ih _ _ _ hr1 hr2)

theorem nmsLoop_sublist (iouThr : ℚ) :
    ∀ (f : ℕ) (l : List Det), (nmsLoop iouThr f l).Sublist l := by
  intro f
  induction f with
  | zero =>
    intro l
    cases l <;> simp [nmsLoop]
  | succ f' ih =>
    intro l
    cases l with
    | nil => simp [nmsLoop]
    | cons c rest =>
      rw [nmsLoop]
      exact (ih _).trans (List.filter_sublist rest) |>.cons₂ c

theorem nmsLoop_pairwise (iouThr : ℚ) :
    ∀ (f : ℕ) (l : List Det), l.length ≤ f →
      List.Pairwise (fun a b => box_iou b.box a.box ≤ iouThr) (nmsLoop iouThr f l) := by
  intro f
  induction f with
  | zero =>
    intro l hl
    rw [List.length_eq_zero.mp (Nat.le_zero.mp hl)]
    exact List.Pairwise.nil
  | succ f' ih =>
    intro l hl
    cases l with
    | nil => exact List.Pairwise.nil
    | cons c rest =>
      rw [nmsLoop]
      refine List.pairwise_cons.mpr ⟨fun x hx => ?_, ?_⟩
      · have hxf : x ∈ rest.filter (fun d => box_iou d.box c.box ≤ iouThr) :=
          (nmsLoop_sublist iouThr _ _).mem hx
        have := List.of_mem_filter hxf
        simpa using this
      · refine ih _ ?_
        have := List.length_filter_le (fun d => box_iou d.box c.box ≤ iouThr) rest
        simp only [List.length_cons] at hl
        omega

theorem nmsLoop_eq_self (iouThr : ℚ) :
    ∀ (f : ℕ) (l : List Det), l.length ≤ f →
      List.Pairwise (fun a b => box_iou b.box a.box ≤ iouThr) l →
      nmsLoop iouThr f l = l := by
  intro f
  induction f with
  | zero =>
    intro l hl _
    rw [List.length_eq_zero.mp (Nat.le_zero.mp hl)]
    rfl
  | succ f' ih =>
    intro l hl hp
    cases l with
    | nil => rfl
    | cons c rest =>
      obtain ⟨hc, hrest⟩ := List.pairwise_cons.mp hp
      rw [nmsLoop]
      have hfilter : rest.filter (fun d => box_iou d.box c.box ≤ iouThr) = rest := by
        rw [List.filter_eq_self]
        intro x hx
        simpa using hc x hx
      rw [hfilter, ih rest (by simp only [List.length_cons] at hl; omega) hrest]

/-- C8: NMS idempotence — re-running `_nms` (same threshold) on its own
output returns exactly the same detections. -/
theorem yolov5_c8_nms_idempotent (iouThr : ℚ) (l : List Det) :
    nms iouThr (nms iouThr l) = nms iouThr l := by
  have hlen : (sortByScoreDesc l).length = l.length := length_sortByScoreDesc l
  have hsorted : SortedDesc (nms iouThr l) :=
    List.Pairwise.sublist (nmsLoop_sublist iouThr l.length (sortByScoreDesc l))
      (sortedDesc_sortByScoreDesc l)
  have hpair : List.Pairwise (fun a b => box_iou b.box a.box ≤ iouThr) (nms iouThr l) :=
    nmsLoop_pairwise iouThr l.length (sortByScoreDesc l) (le_of_eq hlen)
  rw [nms, sortByScoreDesc_eq_self hsorted,
    nmsLoop_eq_self iouThr _ _ (le_refl _) hpair]

theorem relabelDet_score (f : ℚ → ℚ) (d : Det) : (relabelDet f d).score = d.score := rfl

theorem relabelDet_box (f : ℚ → ℚ) (d : Det) : (relabelDet f d).box = d.box := rfl

theorem insertDesc_map_relabel (f : ℚ → ℚ) (a : Det) (l : List Det) :
    insertDesc (relabelDet f a) (l.map (relabelDet f))
      = (insertDesc a l).map (relabelDet f) := by
  induction l with
  | nil => rfl
  | cons b t ih =>
    simp only [List.map_cons, insertDesc, relabelDet_score]
    by_cases hab : a.score < b.score
    · rw [if_pos hab, if_pos hab, List.map_cons, ih]
    · rw [if_neg hab, if_neg hab]
      simp

theorem sortByScoreDesc_map_relabel (f : ℚ → ℚ) (l : List Det) :
    sortByScoreDesc (l.map (relabelDet f)) = (sortByScoreDesc l).map (relabelDet f) := by
  induction l with
  | nil => rfl
  | cons a t ih =>
    show insertDesc (relabelDet f a) (sortByScoreDesc (t.map (relabelDet f)))
      = (insertDesc a (sortByScoreDesc t)).map (relabelDet f)
    rw [ih, insertDesc_map_relabel]

theorem nmsLoop_map_relabel (iouThr : ℚ) (f : ℚ → ℚ) :
    ∀ (fuel : ℕ) (l : List Det),
      nmsLoop iouThr fuel (l.map (relabelDet f))
        = (nmsLoop iouThr fuel l).map (relabelDet f) := by
  intro fuel
  induction fuel with
  | zero => intro l; cases l <;> simp [nmsLoop]
  | succ fuel' ih =>
    intro l
    cases l with
    | nil => rfl
    | cons c rest =>
      simp only [List.map_cons, nmsLoop, List.cons.injEq, true_and]
      rw [List.filter_map]
      have hfun : ((fun d => decide (box_iou d.box (relabelDet f c).box ≤ iouThr))
            ∘ relabelDet f)
          = (fun d => decide (box_iou d.box c.box ≤ iouThr)) := by
        funext d
        simp [Function.comp, relabelDet_box]
      rw [hfun, ih]

/-- C7: suppression is geometry-and-score only.  Relabeling every
detection's class id (any map on the class column) commutes with `_nms`, so
the kept rows are the same rows with relabelled classes; and concretely a
higher-score box of class 0 suppresses an overlapping lower-score box of
class 1: of `[(0,0,10,10, .9, cls 0), (0,0,10,8, .8, cls 1)]` (IoU ≈ 0.8 >
0.45) only the first survives. -/
theorem yolov5_c7_class_agnostic_nms :
    (∀ (iouThr : ℚ) (f : ℚ → ℚ) (l : List Det),
        nms iouThr (l.map (relabelDet f)) = (nms iouThr l).map (relabelDet f))
    ∧ nms (9/20) [⟨0, 0, 10, 10, 9/10, 0⟩, ⟨0, 0, 10, 8, 8/10, 1⟩]
        = [⟨0, 0, 10, 10, 9/10, 0⟩]
    ∧ (⟨0, 0, 10, 10, 9/10, 0⟩ : Det).cls ≠ (⟨0, 0, 10, 8, 8/10, 1⟩ : Det).cls
    ∧ (⟨0, 0, 10, 8, 8/10, 1⟩ : Det).score < (⟨0, 0, 10, 10, 9/10, 0⟩ : Det).score
    ∧ 9/20 < box_iou (⟨0, 0, 10, 8, 8/10, 1⟩ : Det).box (⟨0, 0, 10, 10, 9/10, 0⟩ : Det).box := by
  refine ⟨fun iouThr f l => ?_, ?_, ?_, ?_, ?_⟩
  · rw [nms, nms, List.length_map, sortByScoreDesc_map_relabel, nmsLoop_map_relabel]
  · norm_num [nms, sortByScoreDesc, insertDesc, nmsLoop, box_iou, box_area, iouEps, Det.box]
  · norm_num
  · norm_num
  · norm_num [box_iou, box_area, iouEps, Det.box]

theorem getD_map_lt (f : ℚ → ℚ) {l : List ℚ} {j : ℕ} (h : j < l.length) :
    (l.map f).getD j 0 = f (l.getD j 0) := by
  rw [List.getD_eq_getElem?_getD, List.getD_eq_getElem?_getD, List.getElem?_map,
    List.getElem?_eq_getElem h]
  rfl

theorem enumFrom_filter_none (P : ℚ → Bool) (j : ℕ) :
    ∀ (l : List ℚ) (n : ℕ), j < n →
      ((List.enumFrom n l).filter (fun p => decide (p.1 = j) && P p.2)).length = 0 := by
  intro l
  induction l with
  | nil => intro n _; rfl
  | cons c t ih =>
    intro n hj
    simp only [List.enumFrom, List.filter_cons]
    rw [if_neg (by simp; omega)]
    exact ih (n + 1) (by omega)

theorem enumFrom_filter_count (P : ℚ → Bool) (j : ℕ) :
    ∀ (l : List ℚ) (n : ℕ),
      ((List.enumFrom n l).filter (fun p => decide (p.1 = j) && P p.2)).length
        = if n ≤ j ∧ j - n < l.length ∧ P (l.getD (j - n) 0) then 1 else 0 := by
  intro l
  induction l with
  | nil =>
    intro n
    rw [if_neg (by rintro ⟨_, h2, _⟩; simp at h2)]
    rfl
  | cons c t ih =>
    intro n
    simp only [List.enumFrom, List.filter_cons]
    by_cases hnj : n = j
    · subst hnj
      have htail := enumFrom_filter_none P n t (n + 1) (by omega)
      by_cases hPc : P c
      · rw [if_pos (by simp [hPc]), List.length_cons, htail,
          if_pos ⟨le_refl n, by simp [Nat.sub_self], by simpa [Nat.sub_self] using hPc⟩]
      · rw [if_neg (by simp [hPc]), htail, if_neg (by
          rintro ⟨_, _, h3⟩
          rw [Nat.sub_self, List.getD_cons_zero] at h3
          exact hPc h3)]
    · rw [if_neg (by simp; intro h; exact absurd h hnj)]
      rw [ih (n + 1)]
      by_cases hle : n ≤ j
      · have hidx : j - n = (j - (n + 1)) + 1 := by omega
        rw [hidx, List.getD_cons_succ, List.length_cons]
        refine if_congr ?_ rfl rfl
        constructor
        · rintro ⟨h1, h2, h3⟩; exact ⟨by omega, by omega, h3⟩
        · rintro ⟨h1, h2, h3⟩; exact ⟨by omega, by omega, h3⟩
      · rw [if_neg (by rintro ⟨h1, _, _⟩; omega), if_neg (by rintro ⟨h1, _, _⟩; omega)]

theorem rowDets_count_class (conf : ℚ) (r : Row) (j : ℕ) :
    ((rowDets conf r).filter (fun d => d.cls = (j : ℚ))).length
      = if j < r.cls.length ∧ r.cls.getD j 0 * r.obj > conf then 1 else 0 := by
  rw [rowDets, List.filter_map]
  rw [List.length_map, List.filter_filter]
  have hfun : ∀ p : ℕ × ℚ,
      (((fun d : Det => decide (d.cls = (j : ℚ))) ∘
          (fun p : ℕ × ℚ => (⟨(xywh2xyxy r).x1, (xywh2xyxy r).y1, (xywh2xyxy r).x2,
            (xywh2xyxy r).y2, p.2, (p.1 : ℚ)⟩ : Det))) p && decide (p.2 > conf))
        = (decide (p.1 = j) && decide (conf < p.2)) := by
    intro p
    simp [Function.comp, Nat.cast_inj]
  rw [List.filter_congr (fun p _ => hfun p)]
  have henum : (r.cls.map (· * r.obj)).enum = List.enumFrom 0 (r.cls.map (· * r.obj)) := rfl
  rw [henum, enumFrom_filter_count (fun s => decide (conf < s)) j (r.cls.map (· * r.obj)) 0]
  simp only [Nat.sub_zero, Nat.zero_le, true_and, List.length_map]
  refine if_congr ?_ rfl rfl
  constructor
  · rintro ⟨h1, h2⟩
    rw [decide_eq_true_eq] at h2
    rw [getD_map_lt (· * r.obj) h1] at h2
    exact ⟨h1, h2⟩
  · rintro ⟨h1, h2⟩
    refine ⟨h1, ?_⟩
    rw [decide_eq_true_eq, getD_map_lt (· * r.obj) h1]
    exact h2

theorem filterExpand_count_class (conf : ℚ) (rows : List Row) (j : ℕ) :
    ((filterExpandImage conf rows).filter (fun d => d.cls = (j : ℚ))).length
      = (rows.filter (fun r => r.obj > conf ∧ j < r.cls.length
          ∧ r.cls.getD j 0 * r.obj > conf)).length := by
  induction rows with
  | nil => rfl
  | cons r rest ih =>
    have hrest : ((rest.filter (fun r => r.obj > conf)).flatMap (rowDets conf))
        = filterExpandImage conf rest := rfl
    rw [filterExpandImage, List.filter_cons, List.filter_cons]
    by_cases hobj : r.obj > conf
    · rw [if_pos (by simpa using hobj)]
      rw [List.flatMap_cons, List.filter_append, List.length_append, hrest, ih,
        rowDets_count_class]
      by_cases hcls : j < r.cls.length ∧ r.cls.getD j 0 * r.obj > conf
      · rw [if_pos hcls,
          if_pos (by simp only [decide_eq_true_eq]; exact ⟨hobj, hcls.1, hcls.2⟩)]
        simp only [List.length_cons]
        omega
      · rw [if_neg hcls,
          if_neg (by simp only [decide_eq_true_eq]; rintro ⟨_, hc1, hc2⟩; exact hcls ⟨hc1, hc2⟩)]
        simp
    · rw [if_neg (by simpa using hobj),
        if_neg (by simp only [decide_eq_true_eq]; rintro ⟨hc, _, _⟩; exact hobj hc)]
      rw [hrest]
      exact ih

/-- C9: confidence filtering emits exactly one DetectionCandidate per
(candidate, class) pair whose combined confidence `class_score * objectness`
exceeds `conf_thres`: for every class `j` the number of emitted detections
labelled `j` equals the number of kept candidates whose combined class-`j`
confidence clears the threshold; and on the concrete multi-label row
(objectness 0.9, class scores 0.8 and 0.7, `conf_thres = 0.25`) exactly two
detections are emitted, sharing the corners but with distinct class ids 0
and 1. -/
theorem yolov5_c9_multilabel_expansion :
    (∀ (conf : ℚ) (rows : List Row) (j : ℕ),
        ((filterExpandImage conf rows).filter (fun d => d.cls = (j : ℚ))).length
          = (rows.filter (fun r => r.obj > conf ∧ j < r.cls.length
              ∧ r.cls.getD j 0 * r.obj > conf)).length)
    ∧ filterExpandImage (1/4) [rowMulti]
        = [⟨-1, -1, 1, 1, 18/25, 0⟩, ⟨-1, -1, 1, 1, 63/100, 1⟩] := by
  refine ⟨fun conf rows j => filterExpand_count_class conf rows j, ?_⟩
  norm_num [filterExpandImage, rowDets, xywh2xyxy, List.enum, List.enumFrom, rowMulti]

theorem rowDets_filter_score {t1 t2 : ℚ} (h12 : t1 ≤ t2) (r : Row) :
    (rowDets t1 r).filter (fun d => d.score > t2) = rowDets t2 r := by
  rw [rowDets, rowDets, List.filter_map, List.filter_filter]
  congr 1
  refine List.filter_congr fun p _ => ?_
  by_cases h : t2 < p.2
  · simp [Function.comp, h, lt_of_le_of_lt h12 h]
  · simp [Function.comp, h]

theorem enumFrom_snd_mem {α : Type} : ∀ (l : List α) (n : ℕ) (p : ℕ × α),
    p ∈ List.enumFrom n l → p.2 ∈ l := by
  intro l
  induction l with
  | nil => intro n p hp; simp [List.enumFrom] at hp
  | cons c tl ih =>
    intro n p hp
    simp only [List.enumFrom, List.mem_cons] at hp
    rcases hp with hp | hp
    · rw [hp]
      exact List.mem_cons_self c tl
    · exact List.mem_cons_of_mem _ (ih (n + 1) p hp)

theorem rowDets_eq_nil {t : ℚ} {r : Row} (hobj0 : 0 ≤ r.obj)
    (hcls : ∀ s ∈ r.cls, s ≤ 1) (hle : r.obj ≤ t) : rowDets t r = [] := by
  rw [rowDets]
  have hfil : ((r.cls.map (· * r.obj)).enum.filter (fun p => p.2 > t)) = [] := by
    rw [List.filter_eq_nil_iff]
    intro p hp
    have hmem : p.2 ∈ r.cls.map (· * r.obj) := enumFrom_snd_mem _ 0 p hp
    obtain ⟨c, hc, hcp⟩ := List.mem_map.mp hmem
    simp only [decide_eq_true_eq]
    rw [← hcp]
    intro hgt
    have hcb : c * r.obj ≤ r.obj := mul_le_of_le_one_left hobj0 (hcls c hc)
    linarith
  rw [hfil]
  rfl

theorem filter_flatMap {α β : Type} (p : β → Bool) (f : α → List β) (l : List α) :
    (l.flatMap f).filter p = l.flatMap (fun a => (f a).filter p) := by
  induction l with
  | nil => rfl
  | cons a t ih => rw [List.flatMap_cons, List.flatMap_cons, List.filter_append, ih]

theorem flatMap_rowDets_filter_obj {t1 t2 : ℚ} (h12 : t1 ≤ t2) :
    ∀ (rows : List Row), (∀ r ∈ rows, 0 ≤ r.obj ∧ ∀ s ∈ r.cls, s ≤ 1) →
      (rows.filter (fun r => r.obj > t2)).flatMap (rowDets t2)
        = (rows.filter (fun r => r.obj > t1)).flatMap (rowDets t2) := by
  intro rows
  induction rows with
  | nil => intro _; rfl
  | cons r rest ih =>
    intro hr
    have hrr := hr r (List.mem_cons_self r rest)
    have hrrest : ∀ x ∈ rest, 0 ≤ x.obj ∧ ∀ s ∈ x.cls, s ≤ 1 :=
      fun x hx => hr x (List.mem_cons_of_mem r hx)
    rw [List.filter_cons, List.filter_cons]
    by_cases h2 : r.obj > t2
    · rw [if_pos (by simpa using h2), if_pos (by simpa using lt_of_le_of_lt h12 h2),
        List.flatMap_cons, List.flatMap_cons, ih hrrest]
    · rw [if_neg (by simpa using h2)]
      by_cases h1 : r.obj > t1
      · rw [if_pos (by simpa using h1), List.flatMap_cons,
          rowDets_eq_nil hrr.1 hrr.2 (not_lt.mp h2), List.nil_append, ih hrrest]
      · rw [if_neg (by simpa using h1), ih hrrest]

theorem filterExpand_filter_score {t1 t2 : ℚ} (h12 : t1 ≤ t2) (rows : List Row)
    (hr : ∀ r ∈ rows, 0 ≤ r.obj ∧ ∀ s ∈ r.cls, s ≤ 1) :
    filterExpandImage t2 rows
      = (filterExpandImage t1 rows).filter (fun d => d.score > t2) := by
  rw [filterExpandImage, filterExpandImage, filter_flatMap]
  simp only [rowDets_filter_score h12]
  exact flatMap_rowDets_filter_obj h12 rows hr

theorem sortByScoreDesc_capDets (l : List Det) :
    sortByScoreDesc (capDets l) = (sortByScoreDesc l).take (min l.length maxNmsCount) := by
  rw [capDets]
  by_cases h : l.length > maxNmsCount
  · rw [if_pos h]
    have hsorted : SortedDesc ((sortByScoreDesc l).take maxNmsCount) :=
      List.Pairwise.sublist (List.take_sublist _ _) (sortedDesc_sortByScoreDesc l)
    rw [sortByScoreDesc_eq_self hsorted, min_eq_right (le_of_lt h)]
  · rw [if_neg h, min_eq_left (not_lt.mp h), ← length_sortByScoreDesc l,
      List.take_length]

theorem cap_filter_sort_isPrefix (t : ℚ) (l : List Det) :
    sortByScoreDesc (capDets (l.filter (fun d => d.score > t)))
      <+: sortByScoreDesc (capDets l) := by
  have hsorted : SortedDesc (sortByScoreDesc l) := sortedDesc_sortByScoreDesc l
  have hpre : ((sortByScoreDesc l).filter (fun d => d.score > t)) <+: sortByScoreDesc l :=
    filter_score_isPrefix t hsorted
  rw [sortByScoreDesc_capDets, sortByScoreDesc_capDets, sortByScoreDesc_filter]
  have hlf : (l.filter (fun d => d.score > t)).length
      = ((sortByScoreDesc l).filter (fun d => d.score > t)).length := by
    rw [← sortByScoreDesc_filter, length_sortByScoreDesc]
  rw [hlf]
  have hFle : ((sortByScoreDesc l).filter (fun d => d.score > t)).length
      ≤ (sortByScoreDesc l).length :=
    List.length_filter_le _ _
  have h1 : (((sortByScoreDesc l).filter (fun d => d.score > t)).take
      (min ((sortByScoreDesc l).filter (fun d => d.score > t)).length maxNmsCount))
      <+: sortByScoreDesc l :=
    (List.take_prefix _ _).trans hpre
  have h2 : ((sortByScoreDesc l).take (min l.length maxNmsCount)) <+: sortByScoreDesc l :=
    List.take_prefix _ _
  refine List.prefix_of_prefix_length_le h1 h2 ?_
  rw [List.length_take, List.length_take]
  have hls : l.length = (sortByScoreDesc l).length := (length_sortByScoreDesc l).symm
  rw [hls] at *
  omega

theorem nms_length_le_of_sort_prefix (thr : ℚ) (x y : List Det)
    (h : sortByScoreDesc x <+: sortByScoreDesc y) :
    (nms thr x).length ≤ (nms thr y).length := by
  obtain ⟨rest, hrest⟩ := h
  rw [nms, nms, ← hrest]
  refine nmsLoop_length_mono thr x.length (sortByScoreDesc x) rest y.length
    (le_of_eq (length_sortByScoreDesc x)) (le_of_eq ?_)
  have := congrArg List.length hrest
  rw [List.length_append, length_sortByScoreDesc, length_sortByScoreDesc] at this
  rw [length_sortByScoreDesc]
  exact this

/-- C4 amended: raising `conf_thres` never increases the per-image detection
count PROVIDED every candidate has non-negative objectness and class scores
at most 1 (as post-sigmoid network outputs are); without that restriction
the property fails (see the counterexample). -/
theorem yolov5_c4_amended (rows : List Row) (t1 t2 iouThr : ℚ) (h12 : t1 ≤ t2)
    (hr : ∀ r ∈ rows, 0 ≤ r.obj ∧ ∀ s ∈ r.cls, s ≤ 1) :
    (nmsImage t2 iouThr rows).length ≤ (nmsImage t1 iouThr rows).length := by
  rw [nmsImage, nmsImage, filterExpand_filter_score h12 rows hr]
  exact nms_length_le_of_sort_prefix _ _ _
    (cap_filter_sort_isPrefix t2 (filterExpandImage t1 rows))

/-- C1 fails on the code and is a bug there: `non_max_suppression` accepts
and asserts `iou_thres` but calls `_nms(x[:, :5])` WITHOUT forwarding it, so
suppression always uses `_nms`'s default 0.45.  At the call below,
`iou_thres = 0.7`: the second box's IoU with the first is ≈ 0.6 ≤ 0.7, so
per the claim (and the function's own docstring) it must be kept, yet the
code discards it because 0.6 exceeds the fixed default 0.45. -/
theorem yolov5_c1_fixed_iou_threshold :
    non_max_suppression [[rowIouA, rowIouB]] (1/4) (7/10)
      = .ok [[⟨0, 0, 10, 10, 9/10, 0⟩]]
    ∧ box_iou (⟨0, 0, 10, 6⟩ : Box) ⟨0, 0, 10, 10⟩ ≤ 7/10
    ∧ nmsDefaultIou < box_iou (⟨0, 0, 10, 6⟩ : Box) ⟨0, 0, 10, 10⟩ := by
  refine ⟨?_, ?_, ?_⟩
  · norm_num [non_max_suppression, nmsImage, capDets, maxNmsCount, filterExpandImage,
      rowDets, xywh2xyxy, List.enum, List.enumFrom, rowIouA, rowIouB, nms,
      sortByScoreDesc, insertDesc, nmsLoop, box_iou, box_area, iouEps, Det.box,
      nmsDefaultIou]
  · norm_num [box_iou, box_area, iouEps]
  · norm_num [box_iou, box_area, iouEps, nmsDefaultIou]

theorem callPipeline_e2e_eval :
    callPipeline cfgE2E [featE2E] [⟨1, 0, 0⟩] (1/4) (9/20)
      = .ok [[⟨-44, -44, 36, 36, 1, 0⟩]] := by
  norm_num [callPipeline, cfgE2E, featE2E, processScales, processScale, reshape_output,
    NDArray.reshape, NDArray.transpose, NDArray.ofFn, NDArray.get, permuteSource,
    unflattenIndex, flattenIndex, decodeTensor, decodeAt, make_grid_offsets,
    make_anchor_grid, yoloStride, gridNx, gridNy, anchorAt, YoloConfig.numLayers,
    YoloConfig.anchorPerLayer, concatCandidates, rowsOfCandidates, non_max_suppression,
    nmsImage, capDets, maxNmsCount, filterExpandImage, rowDets, xywh2xyxy, nms, nmsLoop,
    sortByScoreDesc, insertDesc, nmsDefaultIou, box_iou, box_area, iouEps, Det.box,
    remapDet, List.enum, List.enumFrom, List.range_succ]

/-- C3 fails on the code as stated: with the configured anchor `(10, 10)`
at stride 8, the cached anchor grid holds `anchors[0] * stride[0] = 80`, so
`wh_decoded = (0.5*2)^2 * 80 = 80` (not 10) and the end-to-end detection is
not `(-9, -9, 1, 1, 1.0, 0)`. -/
theorem yolov5_c3_counterexample :
    callPipeline cfgE2E [featE2E] [⟨1, 0, 0⟩] (1/4) (9/20)
      ≠ .ok [[⟨-9, -9, 1, 1, 1, 0⟩]] := by
  rw [callPipeline_e2e_eval]
  norm_num

/-- C3 amended: the end-to-end scenario (single scale, configured anchor
`(10, 10)`, stride 8, 1×1 grid, raw `xy = (0,0)`, `wh = (0.5, 0.5)`,
objectness 1, one class score 1, `conf_thres = 0.25`, identity context)
returns exactly one detection `(-44, -44, 36, 36, 1.0, 0)`: the center
decodes to `(-4, -4)` and the size to `(0.5*2)^2 * (10*8) = 80`. -/
theorem yolov5_c3_e2e_scenario :
    callPipeline cfgE2E [featE2E] [⟨1, 0, 0⟩] (1/4) (9/20)
      = .ok [[⟨-44, -44, 36, 36, 1, 0⟩]] :=
  callPipeline_e2e_eval

theorem nmsImage_mono_eval_low :
    nmsImage (1/4) (9/20) [rowMonoA, rowMonoB, rowMonoC, rowMonoD]
      = [⟨0, 0, 10, 10, 19/20, 0⟩, ⟨8, 0, 18, 10, 9/10, 0⟩] := by
  norm_num [nmsImage, capDets, maxNmsCount, filterExpandImage, rowDets, xywh2xyxy,
    List.enum, List.enumFrom, rowMonoA, rowMonoB, rowMonoC, rowMonoD, nms,
    sortByScoreDesc, insertDesc, nmsLoop, box_iou, box_area, iouEps, Det.box,
    nmsDefaultIou]

theorem nmsImage_mono_eval_high :
    nmsImage (2/5) (9/20) [rowMonoA, rowMonoB, rowMonoC, rowMonoD]
      = [⟨0, 0, 10, 10, 19/20, 0⟩, ⟨6, 0, 16, 10, 4/5, 0⟩, ⟨10, 0, 20, 10, 7/10, 0⟩] := by
  norm_num [nmsImage, capDets, maxNmsCount, filterExpandImage, rowDets, xywh2xyxy,
    List.enum, List.enumFrom, rowMonoA, rowMonoB, rowMonoC, rowMonoD, nms,
    sortByScoreDesc, insertDesc, nmsLoop, box_iou, box_area, iouEps, Det.box,
    nmsDefaultIou]

/-- C4 fails on the code as stated (for unrestricted raw scores): on the
four-candidate image `rowMonoA..D` — where candidate B has objectness 0.3
but class score 3, hence combined confidence 0.9 — raising `conf_thres`
from 0.25 to 0.4 removes B from the NMS input; B no longer suppresses C and
D, and the detection count RISES from 2 to 3. -/
theorem yolov5_c4_counterexample :
    (0 : ℚ) ≤ 1/4 ∧ (1/4 : ℚ) ≤ 2/5 ∧ (2/5 : ℚ) ≤ 1
    ∧ ¬ ((nmsImage (2/5) (9/20) [rowMonoA, rowMonoB, rowMonoC, rowMonoD]).length
        ≤ (nmsImage (1/4) (9/20) [rowMonoA, rowMonoB, rowMonoC, rowMonoD]).length) := by
  refine ⟨by norm_num, by norm_num, by norm_num, ?_⟩
  rw [nmsImage_mono_eval_low, nmsImage_mono_eval_high]
  norm_num

/-- Witness for C4 amended on a one-candidate image with objectness 1 and
class score 1, thresholds 0 ≤ 1. -/
theorem yolov5_c4_amended_witness :
    ((0 : ℚ) ≤ 1)
    ∧ (nmsImage 1 (9/20) [⟨0, 0, 2, 2, 1, [1]⟩]).length
        ≤ (nmsImage 0 (9/20) [⟨0, 0, 2, 2, 1, [1]⟩]).length :=
  ⟨zero_le_one,
    yolov5_c4_amended [⟨0, 0, 2, 2, 1, [1]⟩] 0 1 (9/20) zero_le_one (by simp)⟩

/-- C5 fails on the code as stated: on the 2-image batch `featBatch2`
(shape `(2, 6, 1, 1)`) the call errors out instead of succeeding, because
the per-scale flatten reshapes to a hard-coded batch extent of 1. -/
theorem yolov5_c5_counterexample :
    callPipeline cfgE2E [featBatch2] [⟨1, 0, 0⟩, ⟨1, 0, 0⟩] (1/4) (9/20)
      = .error "cannot reshape decoded output into a single batch" := by
  norm_num [callPipeline, cfgE2E, featBatch2, processScales, processScale,
    reshape_output, NDArray.reshape, NDArray.transpose, NDArray.ofFn, NDArray.get,
    YoloConfig.numLayers, YoloConfig.anchorPerLayer, gridNx, gridNy, decodeTensor,
    List.range_succ]

/-- C5 amended: the pipeline only supports single-image batches.  For EVERY
configuration and every well-formed first-scale tensor whose batch extent is
at least 2 (all other extents positive and matching the layer-0 grid), the
call fails with an error — the flatten step `np.reshape(y, (1, A*nx*ny,
C+5))` hard-codes batch 1 — so no multi-image batch is ever processed.
(For a batch of one image the claim is trivial: the call IS the single-image
run.) -/
theorem yolov5_c5_batch_not_supported (cfg : YoloConfig) (feat : NDArray)
    (rest : List NDArray) (contexts : List PreprocContext) (conf iouThr : ℚ) (B : ℕ)
    (hN : 1 ≤ cfg.numLayers)
    (hs : feat.shape = [B, cfg.anchorPerLayer * (cfg.numClasses + 5),
      gridNy cfg 0, gridNx cfg 0])
    (hd : feat.data.length = feat.shape.prod)
    (hB : 2 ≤ B) (hA : 1 ≤ cfg.anchorPerLayer)
    (hy : 1 ≤ gridNy cfg 0) (hx : 1 ≤ gridNx cfg 0) :
    ∃ msg, callPipeline cfg (feat :: rest) contexts conf iouThr = .error msg := by
  have hgd0 : feat.shape.getD 0 0 = B := by rw [hs]; rfl
  have hgd2 : feat.shape.getD 2 0 = gridNy cfg 0 := by rw [hs]; rfl
  have hgd3 : feat.shape.getD 3 0 = gridNx cfg 0 := by rw [hs]; rfl
  have hprod : feat.data.length = ([B, cfg.anchorPerLayer, cfg.numClasses + 5,
      gridNy cfg 0, gridNx cfg 0] : List ℕ).prod := by
    rw [hd, hs]
    simp only [List.prod_cons, List.prod_nil]
    ring
  have hres : reshape_output feat cfg.anchorPerLayer cfg.numClasses
      = some ((⟨[B, cfg.anchorPerLayer, cfg.numClasses + 5, gridNy cfg 0, gridNx cfg 0],
          feat.data⟩ : NDArray).transpose [0, 1, 3, 4, 2]) := by
    rw [reshape_output, hgd0, hgd2, hgd3, NDArray.reshape, if_pos hprod]
    rfl
  set out : NDArray :=
    (⟨[B, cfg.anchorPerLayer, cfg.numClasses + 5, gridNy cfg 0, gridNx cfg 0],
      feat.data⟩ : NDArray).transpose [0, 1, 3, 4, 2] with hout
  have hshape : out.shape
      = [B, cfg.anchorPerLayer, gridNy cfg 0, gridNx cfg 0, cfg.numClasses + 5] := rfl
  have hlen : (decodeTensor cfg 0 out).data.length = out.shape.prod := by
    simp [decodeTensor, NDArray.ofFn]
  have hflat : (decodeTensor cfg 0 out).reshape
      [1, cfg.anchorPerLayer * out.shape.getD 2 0 * out.shape.getD 3 0,
        cfg.numClasses + 5] = none := by
    rw [NDArray.reshape, if_neg ?hne]
    case hne =>
      intro hcontra
      rw [hlen, hshape] at hcontra
      have hg2 : ([B, cfg.anchorPerLayer, gridNy cfg 0, gridNx cfg 0,
          cfg.numClasses + 5] : List ℕ).getD 2 0 = gridNy cfg 0 := rfl
      have hg3 : ([B, cfg.anchorPerLayer, gridNy cfg 0, gridNx cfg 0,
          cfg.numClasses + 5] : List ℕ).getD 3 0 = gridNx cfg 0 := rfl
      rw [hg2, hg3] at hcontra
      simp only [List.prod_cons, List.prod_nil] at hcontra
      have hKeq : 1 * (cfg.anchorPerLayer * gridNy cfg 0 * gridNx cfg 0
            * ((cfg.numClasses + 5) * 1))
          = cfg.anchorPerLayer * (gridNy cfg 0 * (gridNx cfg 0
            * ((cfg.numClasses + 5) * 1))) := by ring
      rw [hKeq] at hcontra
      have hK : 0 < cfg.anchorPerLayer * (gridNy cfg 0 * (gridNx cfg 0
          * ((cfg.numClasses + 5) * 1))) := by
        have h5 : 0 < cfg.numClasses + 5 := by omega
        exact Nat.mul_pos hA (Nat.mul_pos hy (Nat.mul_pos hx
          (Nat.mul_pos h5 Nat.one_pos)))
      have h2K := Nat.mul_le_mul_right (cfg.anchorPerLayer * (gridNy cfg 0
        * (gridNx cfg 0 * ((cfg.numClasses + 5) * 1)))) hB
      omega
  have hps : processScale cfg 0 feat
      = .error "cannot reshape decoded output into a single batch" := by
    simp only [processScale, hres]
    rw [if_pos ⟨rfl, rfl, rfl, rfl, rfl⟩, hflat]
  obtain ⟨m, hm⟩ : ∃ m, cfg.numLayers = m + 1 := ⟨cfg.numLayers - 1, by omega⟩
  have htake : ((feat :: rest).take cfg.numLayers).enum
      = (0, feat) :: (rest.take m).enumFrom 1 := by
    rw [hm, List.take_succ_cons, List.enum_cons]
  have hloop : processScales cfg ((feat :: rest).take cfg.numLayers).enum
      = .error "cannot reshape decoded output into a single batch" := by
    rw [htake]
    simp only [processScales, hps]
  refine ⟨"cannot reshape decoded output into a single batch", ?_⟩
  simp only [callPipeline, hloop]

/-- Witness for C5 amended on the concrete two-image batch. -/
theorem yolov5_c5_batch_not_supported_witness :
    ∃ msg, callPipeline cfgE2E [featBatch2] [⟨1, 0, 0⟩, ⟨1, 0, 0⟩] (1/4) (9/20)
      = .error msg :=
  yolov5_c5_batch_not_supported cfgE2E featBatch2 [] [⟨1, 0, 0⟩, ⟨1, 0, 0⟩]
    (1/4) (9/20) 2 (by decide) rfl rfl (by decide) (by decide)
    (by decide) (by decide)
